import Mathlib

/-!
Verification of the retrieval-and-orchestration subsystem of UNI_AI.

The Python sources `scripts/rag.py`, `scripts/embeddings.py` and
`mcp/orchestrator.py` are shallowly embedded below:

* floats are modelled as rationals (`ℚ`);
* the external sentence-transformer model (`model.encode`) is an abstract
  parameter `model : String → Option Vec`, where `none` models a raised
  exception from the provider;
* the cosine similarity helper `EmbeddingGenerator.similarity` (whose value
  involves a float square root and is irrelevant to every claim below) is an
  abstract parameter `simFn : Vec → Vec → ℚ`;
* Python exceptions are modelled with `Option`: a function that may raise
  returns `none` in the raising case;
* Python character classes are modelled at ASCII precision (the regexes in
  `should_use_rag` use the ASCII classes `[A-Z]` and `[a-z]` literally).
-/

namespace UniAI

/-! ## Character and string helpers (Python `str` operations) -/

/-- Python `str.lower()` on a character list (ASCII precision). -/
def lowerChars (s : List Char) : List Char := s.map Char.toLower

/-- Python `str.upper()` on a character list (ASCII precision). -/
def upperChars (s : List Char) : List Char := s.map Char.toUpper

/-- Word character for the regex boundary `\b` (ASCII fragment of `\w`). -/
def isWordChar (c : Char) : Bool := c.isAlphanum || c == '_'

/-- Python substring test `pat in s`, as a boolean scan. -/
def infixOfB (pat : List Char) : List Char → Bool
  | [] => pat.isEmpty
  | c :: rest => pat.isPrefixOf (c :: rest) || infixOfB pat rest

/-- Accumulator-based tokenizer: Python `str.split()` (split on whitespace
runs, dropping empty tokens).  `cur` holds the current token reversed. -/
def wordsAux (cur : List Char) : List Char → List (List Char)
  | [] => if cur.isEmpty then [] else [cur.reverse]
  | c :: rest =>
      if c.isWhitespace then
        if cur.isEmpty then wordsAux [] rest
        else cur.reverse :: wordsAux [] rest
      else wordsAux (c :: cur) rest

/-- Python `query.split()`. -/
def words (s : List Char) : List (List Char) := wordsAux [] s

/-! ## The regex scans of `should_use_rag` (orchestrator.py lines 131-134) -/

/-- After `[A-Z][a-z]`, the regex `[A-Z][a-z]+[A-Z]` matches iff the rest
starts with zero or more further lowercase letters and then an uppercase. -/
def camelAfterLower : List Char → Bool
  | [] => false
  | c :: rest => c.isUpper || (c.isLower && camelAfterLower rest)

/-- Matches `[a-z]+[A-Z]` as a prefix (the part after the leading capital). -/
def camelTail : List Char → Bool
  | [] => false
  | c :: rest => c.isLower && camelAfterLower rest

/-- Python `re.search(r'[A-Z][a-z]+[A-Z]', query)` as a boolean scan. -/
def hasCamel : List Char → Bool
  | [] => false
  | c :: rest => (c.isUpper && camelTail rest) || hasCamel rest

/-- After two uppercase letters, `\b[A-Z]{2,}\b` matches iff the remainder
begins with a non-word character (or the string ends there), possibly after
further uppercase letters. -/
def afterUppers : List Char → Bool
  | [] => true
  | c :: rest => !isWordChar c || (c.isUpper && afterUppers rest)

/-- Matches `[A-Z]{2,}\b` as a prefix. -/
def acroTail : List Char → Bool
  | c1 :: c2 :: rest => c1.isUpper && c2.isUpper && afterUppers rest
  | _ => false

/-- Scan for `\b[A-Z]{2,}\b`; `prevWord` says whether the previous character
was a word character (so no boundary `\b` sits in front of the cursor). -/
def hasAcronymFrom (prevWord : Bool) : List Char → Bool
  | [] => false
  | c :: rest =>
      (!prevWord && acroTail (c :: rest)) || hasAcronymFrom (isWordChar c) rest

/-- Python `re.search(r'\b[A-Z]{2,}\b', query)` as a boolean scan. -/
def hasAcronym (s : List Char) : Bool := hasAcronymFrom false s

/-! ## `MCPOrchestrator.should_use_rag` (orchestrator.py lines 92-148) -/

/-- The orchestrator's fixed exam/homework keyword vocabulary
(orchestrator.py lines 77-82). -/
def examKeywords : List String :=
  ["exam", "question", "quiz", "test", "assignment",
   "homework", "cat", "past paper", "previous", "mark",
   "define", "explain", "describe", "discuss", "analyze",
   "solve", "calculate", "write", "design", "implement"]

/-- Course-context words of the specificity factor (orchestrator.py line 139). -/
def specificityWords : List String := ["unit", "course", "year", "paper"]

/-- Factor 1: query length score (`0`, `0.1` or `0.2`). -/
def lengthScore (n : Nat) : ℚ := if n > 10 then 2/10 else if n > 5 then 1/10 else 0

/-- Number of exam keywords occurring as substrings of the lowered query
(Python `sum(1 for kw in self.exam_keywords if kw in query_lower)`). -/
def examKeywordCount (queryLower : List Char) : Nat :=
  (examKeywords.filter (fun kw => infixOfB kw.toList queryLower)).length

/-- Factor 2: exam-keyword score, `min 0.3 (hits * 0.1)` guarded by
`hits > 0`. -/
def keywordScore (hits : Nat) : ℚ :=
  if hits > 0 then min (3/10) ((hits : ℚ) * (1/10)) else 0

/-- First half of factor 3: `+0.15` iff the CamelCase regex matches. -/
def camelScore (q : List Char) : ℚ := if hasCamel q then 15/100 else 0

/-- Second half of factor 3: `+0.15` iff the acronym regex matches. -/
def acronymScore (q : List Char) : ℚ := if hasAcronym q then 15/100 else 0

/-- Factor 4: `+0.2` iff a course-context word occurs in the lowered query. -/
def specificityScore (queryLower : List Char) : ℚ :=
  if specificityWords.any (fun w => infixOfB w.toList queryLower) then 2/10 else 0

/-- The accumulated `max_score` of `should_use_rag` (four weight budgets). -/
def maxScore : ℚ := 2/10 + 3/10 + 3/10 + 2/10

/-- The accumulated `score` of `should_use_rag` on the query's characters. -/
def ragScore (q : List Char) : ℚ :=
  lengthScore (words q).length
    + keywordScore (examKeywordCount (lowerChars q))
    + camelScore q
    + acronymScore q
    + specificityScore (lowerChars q)

/-- The normalized confidence `score / max_score` (with the `max_score > 0`
guard of orchestrator.py line 143). -/
def ragConfidence (query : String) : ℚ :=
  if maxScore > 0 then ragScore query.toList / maxScore else 0

/-- `MCPOrchestrator.should_use_rag`: returns `(use_rag, confidence)` for a
given decision threshold (constructor default `0.5`). -/
def should_use_rag (useRagThreshold : ℚ) (query : String) : Bool × ℚ :=
  (ragConfidence query ≥ useRagThreshold, ragConfidence query)

/-! ## Data model (embeddings.py, rag.py) -/

/-- An embedding vector (floats modelled as rationals). -/
abbrev Vec := List ℚ

/-- One metadata record, as built by `EmbeddingGenerator.embed_questions`
(embeddings.py lines 139-150).  The records are Python dicts; retrieval may
later write the keys `similarity_score` and `distance` into them, modelled
here by the two `Option` fields (`none` means the key is absent). -/
structure MetaEntry where
  question : String
  unit : String
  year : String
  course : String
  sourceFile : String
  questionNumber : Nat
  extra : List (String × String)
  similarityScore : Option ℚ := none
  distance : Option ℚ := none
deriving DecidableEq, Repr

/-- The mutable state of a `RAGSystem` instance (rag.py lines 65-70):
`faiss_index` (`none` = not initialized), the parallel `metadata` list and
the `topic_cache`. -/
structure RAGState where
  faiss_index : Option (List Vec)
  metadata : List MetaEntry
  topic_cache : List (String × List MetaEntry)
deriving DecidableEq, Repr

/-- The two durable artifacts of persistence: the FAISS index file at
`index_path` and the metadata JSON at `metadata_path` (`none` = file does
not exist). -/
structure FS where
  indexFile : Option (List Vec)
  metaFile : Option (List MetaEntry)
deriving DecidableEq, Repr

/-- `EmbeddingGenerator.embed_text` (embeddings.py lines 65-83): an empty
text short-circuits to a zero vector of the model dimension; otherwise the
text is truncated to 2000 characters and handed to the external model
(`none` = the provider raised). -/
def embed_text (model : String → Option Vec) (dim : Nat) (text : String) :
    Option Vec :=
  if text = "" then some (List.replicate dim 0)
  else model (text.take 2000)

/-! ## FAISS `IndexFlatL2` search (exact nearest neighbour) -/

/-- Squared Euclidean distance between two vectors (the `IndexFlatL2`
metric). -/
def sqDist (a b : Vec) : ℚ := ((a.zip b).map (fun p => (p.1 - p.2) ^ 2)).sum

/-- Insert an `(index, distance)` row keeping ascending distance order;
placed after equal distances, so ties keep insertion (storage) order. -/
def insertByDist (p : Int × ℚ) : List (Int × ℚ) → List (Int × ℚ)
  | [] => [p]
  | x :: rest => if p.2 < x.2 then p :: x :: rest else x :: insertByDist p rest

/-- Stable insertion sort of `(index, distance)` rows by ascending
distance. -/
def sortByDist : List (Int × ℚ) → List (Int × ℚ)
  | [] => []
  | p :: rest => insertByDist p (sortByDist rest)

/-- The sentinel distance FAISS uses to pad missing neighbours
(`FLT_MAX`). -/
def fltMax : ℚ := (2 - (2:ℚ) ^ (-23 : ℤ)) * 2 ^ (127 : ℕ)

/-- All `(storage index, squared distance)` rows for a query vector. -/
def distRows (db : List Vec) (qv : Vec) : List (Int × ℚ) :=
  (db.enum).map (fun p => ((p.1 : Int), sqDist qv p.2))

/-- `faiss_index.search(query, k)`: the `min(k, ntotal)` nearest rows in
ascending distance order (ties by storage order), padded to exactly `k`
rows with index `-1` and distance `FLT_MAX` when `k > ntotal`. -/
def search (db : List Vec) (qv : Vec) (k : Nat) : List (Int × ℚ) :=
  (sortByDist (distRows db qv)).take k
    ++ List.replicate (k - db.length) (-1, fltMax)

/-! ## `RAGSystem.retrieve_notes` (rag.py lines 166-221) -/

/-- Python list indexing `l[i]`, including negative indices from the end;
`none` models an `IndexError`. -/
def pyGet {α : Type} (l : List α) (i : Int) : Option α :=
  if 0 ≤ i then l.get? i.toNat
  else if (-i).toNat ≤ l.length then l.get? (l.length - (-i).toNat) else none

/-- The result-building loop of `retrieve_notes` (rag.py lines 207-213) over
`zip(indices[0], similarities)`: a row is kept iff `idx < len(metadata)` and
its similarity clears the threshold; the kept row is a copy of
`metadata[idx]` with `similarity_score` and `distance` written into it
(`distance` looked up at the first position of `idx` in `indices[0]`).
`none` models an uncaught exception inside the loop. -/
def rnLoop (metadata : List MetaEntry) (indices : List Int)
    (distances : List ℚ) (threshold : ℚ) :
    List (Int × ℚ) → Option (List MetaEntry)
  | [] => some []
  | (idx, sim) :: rest =>
      if idx < (metadata.length : Int) ∧ threshold ≤ sim then
        match pyGet metadata idx with
        | none => none
        | some m =>
            match indices.findIdx? (fun j => j == idx) with
            | none => none
            | some pos =>
                match distances.get? pos with
                | none => none
                | some d =>
                    match rnLoop metadata indices distances threshold rest with
                    | none => none
                    | some rs =>
                        some ({ m with similarityScore := some sim,
                                       distance := some d } :: rs)
      else rnLoop metadata indices distances threshold rest

/-- `RAGSystem.retrieve_notes(query, top_k, similarity_threshold)`: embeds
the query, searches the index, converts distances to similarities
`1 / (1 + d)`, and keeps thresholded rows.  Every failure path (uninitialized
index, provider exception, loop exception) yields `[]`. -/
def retrieve_notes (model : String → Option Vec) (dim : Nat) (st : RAGState)
    (query : String) (top_k : Nat) (threshold : ℚ) : List MetaEntry :=
  match st.faiss_index with
  | none => []
  | some db =>
      if st.metadata.length = 0 then []
      else
        match embed_text model dim query with
        | none => []
        | some qv =>
            let rows := search db qv top_k
            let indices := rows.map Prod.fst
            let distances := rows.map Prod.snd
            let sims := distances.map (fun d => 1 / (1 + d))
            match rnLoop st.metadata indices distances threshold
                (indices.zip sims) with
            | none => []
            | some rs => rs

/-! ## `RAGSystem.retrieve_by_unit` (rag.py lines 223-266)

The Python list comprehension `[m for m in self.metadata if ...]` collects
*aliases* of the stored metadata dicts, and the query-ranked path writes
`q["similarity_score"] = similarity` through those aliases, mutating the
stored metadata.  The embedding therefore returns the post-call metadata
list alongside the result (`none` result = an exception escaped: the method
body has no `try`/`except`). -/

/-- The unit filter predicate: case-insensitive exact unit match
(`m.get("unit", "").upper() == unit.upper()`). -/
def unitMatches (unit : String) (m : MetaEntry) : Bool :=
  upperChars m.unit.toList == upperChars unit.toList

/-- The scoring loop of the query-ranked path (rag.py lines 257-261): each
matching entry's question is re-embedded from scratch and its
`similarity_score` key overwritten.  Returns the entry list as mutated so
far plus a success flag; on a provider exception the failing entry and all
later ones are left untouched and the flag is `false`. -/
def scoreLoop (model : String → Option Vec) (dim : Nat)
    (simFn : Vec → Vec → ℚ) (qv : Vec) :
    List MetaEntry → List MetaEntry × Bool
  | [] => ([], true)
  | m :: rest =>
      match embed_text model dim m.question with
      | none => (m :: rest, false)
      | some e =>
          let scored := scoreLoop model dim simFn qv rest
          ({ m with similarityScore := some (simFn qv e) } :: scored.1,
           scored.2)

/-- Write the mutated matching entries back into the stored metadata at
their original positions (the in-place effect of dict aliasing). -/
def replaceMatching (p : MetaEntry → Bool) :
    List MetaEntry → List MetaEntry → List MetaEntry
  | [], _ => []
  | m :: rest, repls =>
      if p m then
        match repls with
        | r :: rs => r :: replaceMatching p rest rs
        | [] => m :: rest
      else m :: replaceMatching p rest repls

/-- Stable insertion step for the descending sort by
`x.get("similarity_score", 0)`. -/
def insertDescBySim (m : MetaEntry) : List MetaEntry → List MetaEntry
  | [] => [m]
  | x :: rest =>
      if x.similarityScore.getD 0 < m.similarityScore.getD 0 then
        m :: x :: rest
      else x :: insertDescBySim m rest

/-- Python `list.sort(key=lambda x: x.get("similarity_score", 0),
reverse=True)`: stable descending sort. -/
def sortDescBySim : List MetaEntry → List MetaEntry
  | [] => []
  | m :: rest => insertDescBySim m (sortDescBySim rest)

/-- `RAGSystem.retrieve_by_unit(unit, query, top_k)`.  Returns
`(metadata after the call, some results | none)`; `none` means an uncaught
exception reached the caller.  Python's `if query:` treats `some ""` like
`none`. -/
def retrieve_by_unit (model : String → Option Vec) (dim : Nat)
    (simFn : Vec → Vec → ℚ) (st : RAGState) (unit : String)
    (query : Option String) (top_k : Nat) :
    List MetaEntry × Option (List MetaEntry) :=
  let unit_questions := st.metadata.filter (unitMatches unit)
  if unit_questions.isEmpty then (st.metadata, some [])
  else
    match query with
    | some q =>
        if q = "" then (st.metadata, some (unit_questions.take top_k))
        else
          match embed_text model dim q with
          | none => (st.metadata, none)
          | some qv =>
              let scored := scoreLoop model dim simFn qv unit_questions
              let newMeta :=
                replaceMatching (unitMatches unit) st.metadata scored.1
              if scored.2 then
                (newMeta, some ((sortDescBySim scored.1).take top_k))
              else (newMeta, none)
    | none => (st.metadata, some (unit_questions.take top_k))

/-! ## Persistence and topic cache (rag.py lines 109-164, 268-289) -/

/-- `RAGSystem.save_index`: `faiss.write_index` on a `None` index raises
(caught, `False`, nothing written); otherwise both artifacts are
overwritten.  Returns `(success, file system after the call)`. -/
def save_index (st : RAGState) (fs : FS) : Bool × FS :=
  match st.faiss_index with
  | none => (false, fs)
  | some db => (true, { indexFile := some db, metaFile := some st.metadata })

/-- `RAGSystem.load_index`: a missing index file yields `False`; a missing
metadata file leaves the in-memory metadata untouched.  Returns
`(success, state after the call)`. -/
def load_index (st : RAGState) (fs : FS) : Bool × RAGState :=
  match fs.indexFile with
  | none => (false, st)
  | some db =>
      let md := match fs.metaFile with
                | some m => m
                | none => st.metadata
      (true, { st with faiss_index := some db, metadata := md })

/-- Association-list update with Python-dict semantics: overwrite in place
if the key exists, else append. -/
def dictInsert {α : Type} (m : List (String × α)) (k : String) (v : α) :
    List (String × α) :=
  if m.any (fun p => p.1 == k) then
    m.map (fun p => if p.1 == k then (k, v) else p)
  else m ++ [(k, v)]

/-- Association-list lookup (Python `dict.get`). -/
def dictLookup {α : Type} (m : List (String × α)) (k : String) : Option α :=
  (m.find? (fun p => p.1 == k)).map Prod.snd

/-- `RAGSystem.cache_topic`: lower-cased key, overwrite-on-write. -/
def cache_topic (st : RAGState) (topic : String) (qs : List MetaEntry) :
    RAGState :=
  { st with topic_cache :=
      dictInsert st.topic_cache (String.mk (lowerChars topic.toList)) qs }

/-- `RAGSystem.get_cached_topic`: lower-cased exact-match lookup. -/
def get_cached_topic (st : RAGState) (topic : String) :
    Option (List MetaEntry) :=
  dictLookup st.topic_cache (String.mk (lowerChars topic.toList))

/-! ## `MCPOrchestrator.format_context` (orchestrator.py lines 150-196) -/

/-- Two-digit zero padding for the percent rendering. -/
def pad2 (n : Nat) : String := if n < 10 then "0" ++ toString n else toString n

/-- Round half to even, the rounding of Python float formatting. -/
def roundHalfEven (x : ℚ) : Int :=
  let f := Int.floor x
  let r := x - f
  if r < 1/2 then f
  else if 1/2 < r then f + 1
  else if f % 2 = 0 then f else f + 1

/-- Python `f"{similarity:.2%}"`: similarity as a percentage with two
decimal places. -/
def fmtPercent (x : ℚ) : String :=
  let v := roundHalfEven (x * 10000)
  let sign := if v < 0 then "-" else ""
  let a := v.natAbs
  sign ++ toString (a / 100) ++ "." ++ pad2 (a % 100) ++ "%"

/-- One formatted context entry (orchestrator.py line 183): index marker,
unit/year/relevance line, and the question text capped at 500 characters. -/
def renderEntry (i : Nat) (q : MetaEntry) : String :=
  "\n[Q" ++ toString i ++ "] Unit: " ++ q.unit ++ ", Year: " ++ q.year
    ++ " (Relevance: " ++ fmtPercent (q.similarityScore.getD 0) ++ ")\n"
    ++ q.question.take 500

/-- The omission trailer `"\n... and N more questions"`. -/
def moreTrailer (n : Nat) : String :=
  "\n... and " ++ toString n ++ " more questions"

/-- The accumulation loop of `format_context` (orchestrator.py lines
176-191): entries are appended while the running entry length stays within
`maxLen`; the first overflowing entry is replaced by the trailer and the
loop breaks. -/
def fcLoop (maxLen : Int) (i : Nat) (total : Int) :
    List MetaEntry → List String
  | [] => []
  | q :: rest =>
      let entry := renderEntry i q
      if maxLen < total + (entry.length : Int) then
        [moreTrailer (rest.length + 1)]
      else entry :: fcLoop maxLen (i + 1) (total + entry.length) rest

/-- The fixed header and separator lines. -/
def contextHeader : List String :=
  ["RELEVANT PAST PAPER QUESTIONS:", String.mk (List.replicate 50 '-')]

/-- `MCPOrchestrator.format_context(retrieved_questions,
max_context_length)` (default `max_context_length = 2000`). -/
def format_context (results : List MetaEntry) (maxLen : Int) : String :=
  if results.isEmpty then ""
  else String.intercalate "\n" (contextHeader ++ fcLoop maxLen 1 0 results)

/-! ## `MCPOrchestrator.answer_question` and `batch_answer_questions`
(orchestrator.py lines 198-293) -/

/-- `MCPOrchestrator.answer_question`.  The MCP client call
`answer_question_with_context(combined, context, mode)` is the abstract
parameter `mcp`; `ragSys` is `none` when `self.rag_system` is `None`.
Defaults: `mode = "exam"`, `top_k = 3`, and `retrieve_notes` is called with
its default `similarity_threshold = 0.3`. -/
def answer_question (mcp : String → Option String → String → Option String)
    (model : String → Option Vec) (dim : Nat) (thr : ℚ)
    (ragSys : Option RAGState) (query : String) (mode : String)
    (use_rag : Option Bool) (top_k : Nat) : Option String :=
  let useRag := match use_rag with
                | some b => b
                | none => (should_use_rag thr query).1
  let retrieved := match ragSys with
                   | some st =>
                       if useRag then
                         retrieve_notes model dim st query top_k (3/10)
                       else []
                   | none => []
  let context := if retrieved.isEmpty then "" else format_context retrieved 2000
  let combined := if context = "" then query
                  else context ++ "\n\nQUESTION:\n" ++ query
  mcp combined (if context = "" then none else some context) mode

/-- The loop of `batch_answer_questions`: one `answer_question` call per
element, results collected into a dict keyed by the query string.  Each
iteration performs a fresh call to the external MCP service, which may
answer differently on every call; the per-iteration outcome is therefore
abstracted as `answerFn`, indexed by the position of the call in the batch. -/
def batchLoop (answerFn : Nat → String → Option String) :
    Nat → List (String × Option String) → List String →
      List (String × Option String)
  | _, acc, [] => acc
  | i, acc, q :: rest =>
      batchLoop answerFn (i + 1) (dictInsert acc q (answerFn i q)) rest

/-- `MCPOrchestrator.batch_answer_questions(queries, mode, use_rag)`. -/
def batch_answer_questions (answerFn : Nat → String → Option String)
    (queries : List String) : List (String × Option String) :=
  batchLoop answerFn 0 [] queries

/-! ## Declarative readings of the technical-pattern regexes -/

/-- Declarative contents of the code's regex `[A-Z][a-z]+[A-Z]`: an
uppercase letter, a nonempty lowercase run, then an uppercase letter,
anywhere in the string. -/
def CamelPattern (s : List Char) : Prop :=
  ∃ pre mid post u v, s = pre ++ u :: (mid ++ v :: post) ∧
    u.isUpper = true ∧ mid ≠ [] ∧ (∀ x ∈ mid, x.isLower = true) ∧
    v.isUpper = true

/-- The spec's words for the first half of the technical-pattern factor:
"a lowercase run followed by an uppercase letter followed by a lowercase
letter". -/
def specEmbeddedCapital (s : List Char) : Prop :=
  ∃ pre run post u c, s = pre ++ (run ++ u :: c :: post) ∧ run ≠ [] ∧
    (∀ x ∈ run, x.isLower = true) ∧ u.isUpper = true ∧ c.isLower = true

/-- The query of spec scenario 2. -/
def scenario2Query : String :=
  "Define object-oriented programming and explain its principles"

/-! ## Specification-side derived definitions -/

/-- A metadata record with its `similarity_score` key erased; two records
agree up to retrieval scoring iff their `sansScore` images agree. -/
def sansScore (m : MetaEntry) : MetaEntry := { m with similarityScore := none }

/-- The rendered entries of `format_context`, with their 1-based index
markers. -/
def renderFrom (i : Nat) : List MetaEntry → List String
  | [] => []
  | q :: rest => renderEntry i q :: renderFrom (i + 1) rest

/-- How many leading rendered entries fit: the greedy count of entries whose
running total length stays within `maxLen`. -/
def takeWithin (maxLen : Int) : Int → List String → Nat
  | _, [] => 0
  | total, e :: rest =>
      if maxLen < total + (e.length : Int) then 0
      else 1 + takeWithin maxLen (total + e.length) rest

/-- First-occurrence deduplication of a query list, relative to the keys
already `seen` (Python dict key order). -/
def dedupAppend (seen : List String) : List String → List String
  | [] => []
  | q :: rest =>
      if q ∈ seen then dedupAppend seen rest
      else q :: dedupAppend (seen ++ [q]) rest

/-- Index of the last occurrence of `q` in a query list (meaningful when
`q` occurs). -/
def lastOcc (q : String) : List String → Nat
  | [] => 0
  | _ :: rest => if q ∈ rest then lastOcc q rest + 1 else 0

/-! ## Concrete fixtures used by witnesses and counterexamples -/

/-- A concrete metadata record. -/
def u1 : MetaEntry :=
  { question := "Explain OOP principles", unit := "BBIT106", year := "2022",
    course := "BBIT", sourceFile := "bbit106_2022.pdf", questionNumber := 1,
    extra := [] }

/-- A second concrete metadata record. -/
def u2 : MetaEntry :=
  { question := "Define normalization", unit := "BBIT204", year := "2023",
    course := "BBIT", sourceFile := "bbit204_2023.pdf", questionNumber := 2,
    extra := [] }

/-- A state whose index holds two vectors parallel to two metadata
records. -/
def sampleState : RAGState :=
  { faiss_index := some [[1, 0], [0, 1]], metadata := [u1, u2],
    topic_cache := [] }

/-- A one-document state whose single vector matches `okModel`'s output. -/
def oneState : RAGState :=
  { faiss_index := some [[1]], metadata := [u1], topic_cache := [] }

/-- The state of a freshly constructed `RAGSystem` (no index, no
metadata). -/
def emptyState : RAGState :=
  { faiss_index := none, metadata := [], topic_cache := [] }

/-- An empty file system (neither artifact exists). -/
def emptyFS : FS := { indexFile := none, metaFile := none }

/-- An embedding provider that always raises. -/
def failingModel : String → Option Vec := fun _ => none

/-- An embedding provider that always returns the same unit vector. -/
def okModel : String → Option Vec := fun _ => some [1]

/-- A constant similarity function. -/
def constSim : Vec → Vec → ℚ := fun _ _ => 1/2

/-- A batch answer provider that records the index of the call. -/
def idxAnswer : Nat → String → Option String := fun i _ => some (toString i)

/-! ## Helper lemmas about the string scans -/

theorem isPrefixOf_append_mono {l m b : List Char}
    (h : l.isPrefixOf m = true) : l.isPrefixOf (m ++ b) = true := by
  induction l generalizing m with
  | nil => simp [List.isPrefixOf]
  | cons c cs ih =>
      cases m with
      | nil => simp [List.isPrefixOf] at h
      | cons d ds =>
          simp only [List.cons_append, List.isPrefixOf, Bool.and_eq_true]
            at h ⊢
          exact ⟨h.1, ih h.2⟩

theorem infixOfB_nil_pat (s : List Char) : infixOfB [] s = true := by
  induction s with
  | nil => rfl
  | cons c rest ih => simp [infixOfB, List.isPrefixOf]

theorem infixOfB_append_mono {pat a b : List Char}
    (h : infixOfB pat a = true) : infixOfB pat (a ++ b) = true := by
  induction a with
  | nil =>
      cases pat with
      | nil => exact infixOfB_nil_pat _
      | cons p ps => simp [infixOfB, List.isEmpty] at h
  | cons c rest ih =>
      simp only [infixOfB, Bool.or_eq_true, List.cons_append] at h ⊢
      rcases h with hp | hi
      · exact Or.inl (isPrefixOf_append_mono hp)
      · exact Or.inr (ih hi)

theorem camelAfterLower_append {r t : List Char}
    (h : camelAfterLower r = true) : camelAfterLower (r ++ t) = true := by
  induction r with
  | nil => simp [camelAfterLower] at h
  | cons c rest ih =>
      simp only [camelAfterLower, Bool.or_eq_true, Bool.and_eq_true,
        List.cons_append] at h ⊢
      rcases h with hu | ⟨hl, hr⟩
      · exact Or.inl hu
      · exact Or.inr ⟨hl, ih hr⟩

theorem camelTail_append {r t : List Char} (h : camelTail r = true) :
    camelTail (r ++ t) = true := by
  cases r with
  | nil => simp [camelTail] at h
  | cons c rest =>
      simp only [camelTail, Bool.and_eq_true, List.cons_append] at h ⊢
      exact ⟨h.1, camelAfterLower_append h.2⟩

theorem hasCamel_append {a t : List Char} (h : hasCamel a = true) :
    hasCamel (a ++ t) = true := by
  induction a with
  | nil => simp [hasCamel] at h
  | cons c rest ih =>
      simp only [hasCamel, Bool.or_eq_true, Bool.and_eq_true,
        List.cons_append] at h ⊢
      rcases h with ⟨hu, ht⟩ | hc
      · exact Or.inl ⟨hu, camelTail_append ht⟩
      · exact Or.inr (ih hc)

theorem afterUppers_append_ws {r k : List Char} (h : afterUppers r = true) :
    afterUppers (r ++ ' ' :: k) = true := by
  induction r with
  | nil => simp [afterUppers, isWordChar]
  | cons c rest ih =>
      simp only [afterUppers, Bool.or_eq_true, Bool.and_eq_true,
        List.cons_append] at h ⊢
      rcases h with hw | ⟨hu, hr⟩
      · exact Or.inl hw
      · exact Or.inr ⟨hu, ih hr⟩

theorem acroTail_append_ws {r k : List Char} (h : acroTail r = true) :
    acroTail (r ++ ' ' :: k) = true := by
  cases r with
  | nil => simp [acroTail] at h
  | cons c1 r1 =>
      cases r1 with
      | nil => simp [acroTail] at h
      | cons c2 r2 =>
          simp only [acroTail, Bool.and_eq_true, List.cons_append] at h ⊢
          exact ⟨h.1, afterUppers_append_ws h.2⟩

theorem hasAcronymFrom_append_ws {p : Bool} {a k : List Char}
    (h : hasAcronymFrom p a = true) :
    hasAcronymFrom p (a ++ ' ' :: k) = true := by
  induction a generalizing p with
  | nil => simp [hasAcronymFrom] at h
  | cons c rest ih =>
      simp only [hasAcronymFrom, Bool.or_eq_true, Bool.and_eq_true,
        List.cons_append] at h ⊢
      rcases h with ⟨hp, ht⟩ | hrec
      · exact Or.inl ⟨hp, by
          have := acroTail_append_ws (r := c :: rest) (k := k) ht
          simpa using this⟩
      · exact Or.inr (ih hrec)

theorem wordsAux_append_space (a : List Char) :
    ∀ cur b, wordsAux cur (a ++ ' ' :: b) = wordsAux cur a ++ wordsAux [] b := by
  induction a with
  | nil =>
      intro cur b
      show wordsAux cur (' ' :: b) = wordsAux cur [] ++ wordsAux [] b
      rw [wordsAux, wordsAux]
      have hw : (' ' : Char).isWhitespace = true := by decide
      rw [hw]
      by_cases hc : cur.isEmpty
      · simp [hc]
      · simp [hc]
  | cons c rest ih =>
      intro cur b
      show wordsAux cur (c :: (rest ++ ' ' :: b)) = wordsAux cur (c :: rest) ++ wordsAux [] b
      rw [wordsAux, wordsAux]
      by_cases hw : c.isWhitespace
      · by_cases hc : cur.isEmpty
        · simp [hw, hc, ih]
        · simp [hw, hc, ih]
      · simp [hw, ih]

theorem words_append_space (a b : List Char) :
    words (a ++ ' ' :: b) = words a ++ words b :=
  wordsAux_append_space a [] b

/-! ## Monotonicity of the scoring factors -/

theorem lengthScore_mono {m n : Nat} (h : m ≤ n) :
    lengthScore m ≤ lengthScore n := by
  unfold lengthScore
  split_ifs <;> try norm_num
  all_goals omega

theorem keywordScore_nonneg (n : Nat) : 0 ≤ keywordScore n := by
  unfold keywordScore
  split_ifs with h
  · exact le_min (by norm_num) (by positivity)
  · exact le_refl 0

theorem keywordScore_mono {m n : Nat} (h : m ≤ n) :
    keywordScore m ≤ keywordScore n := by
  rcases Nat.eq_zero_or_pos m with rfl | hm
  · have : keywordScore 0 = 0 := by simp [keywordScore]
    rw [this]
    exact keywordScore_nonneg n
  · have hn : 0 < n := lt_of_lt_of_le hm h
    unfold keywordScore
    rw [if_pos hm, if_pos hn]
    exact min_le_min (le_refl _)
      (mul_le_mul_of_nonneg_right (by exact_mod_cast h) (by norm_num))

theorem length_filter_mono {α : Type} (l : List α) (p q : α → Bool)
    (h : ∀ x ∈ l, p x = true → q x = true) :
    (l.filter p).length ≤ (l.filter q).length := by
  induction l with
  | nil => simp
  | cons a rest ih =>
      have ih2 := ih (fun x hx hpx => h x (List.mem_cons_of_mem a hx) hpx)
      by_cases hp : p a = true
      · rw [List.filter_cons_of_pos hp,
          List.filter_cons_of_pos (h a (List.mem_cons_self a rest) hp)]
        simpa using ih2
      · rw [List.filter_cons_of_neg hp]
        by_cases hq : q a = true
        · rw [List.filter_cons_of_pos hq]
          exact le_trans ih2 (by simp)
        · rw [List.filter_cons_of_neg hq]
          exact ih2

theorem examKeywordCount_append_mono (a t : List Char) :
    examKeywordCount a ≤ examKeywordCount (a ++ t) := by
  unfold examKeywordCount
  exact length_filter_mono _ _ _ (fun kw _ hk => infixOfB_append_mono hk)

theorem camelScore_mono {a t : List Char} :
    camelScore a ≤ camelScore (a ++ t) := by
  unfold camelScore
  by_cases hc : hasCamel a = true
  · rw [if_pos hc, if_pos (hasCamel_append hc)]
  · rw [if_neg hc]
    split_ifs <;> norm_num

theorem hasAcronym_append_ws {a k : List Char} (h : hasAcronym a = true) :
    hasAcronym (a ++ ' ' :: k) = true :=
  hasAcronymFrom_append_ws h

theorem acronymScore_mono_ws {a k : List Char} :
    acronymScore a ≤ acronymScore (a ++ ' ' :: k) := by
  unfold acronymScore
  by_cases hc : hasAcronym a = true
  · rw [if_pos hc, if_pos (hasAcronym_append_ws hc)]
  · rw [if_neg hc]
    split_ifs <;> norm_num

theorem specificityScore_append_mono (a t : List Char) :
    specificityScore a ≤ specificityScore (a ++ t) := by
  unfold specificityScore
  by_cases hc : specificityWords.any (fun w => infixOfB w.toList a) = true
  · have hc2 : specificityWords.any (fun w => infixOfB w.toList (a ++ t)) = true := by
      rw [List.any_eq_true] at hc ⊢
      obtain ⟨w, hw, hinf⟩ := hc
      exact ⟨w, hw, infixOfB_append_mono hinf⟩
    rw [if_pos hc, if_pos hc2]
  · rw [if_neg hc]
    split_ifs <;> norm_num

/-! ## Equivalence of the camel scan with its declarative reading -/

theorem camelAfterLower_iff (r : List Char) :
    camelAfterLower r = true ↔
      ∃ mid v post, r = mid ++ v :: post ∧
        (∀ x ∈ mid, x.isLower = true) ∧ v.isUpper = true := by
  induction r with
  | nil =>
      simp only [camelAfterLower]
      constructor
      · intro h
        exact absurd h (by simp)
      · rintro ⟨mid, v, post, heq, -, -⟩
        exact absurd heq (by simp)
  | cons c rest ih =>
      simp only [camelAfterLower, Bool.or_eq_true, Bool.and_eq_true, ih]
      constructor
      · rintro (hu | ⟨hl, mid, v, post, rfl, hmid, hv⟩)
        · exact ⟨[], c, rest, rfl, by simp, hu⟩
        · refine ⟨c :: mid, v, post, rfl, ?_, hv⟩
          intro x hx
          rcases List.mem_cons.mp hx with rfl | hx2
          · exact hl
          · exact hmid x hx2
      · rintro ⟨mid, v, post, heq, hmid, hv⟩
        cases mid with
        | nil =>
            rw [List.nil_append] at heq
            injection heq with h1 h2
            subst h1
            subst h2
            exact Or.inl hv
        | cons m0 mid2 =>
            rw [List.cons_append] at heq
            injection heq with h1 h2
            subst h1
            right
            refine ⟨hmid c (by simp), mid2, v, post, h2, ?_, hv⟩
            intro x hx
            exact hmid x (by simp [hx])

theorem camelTail_iff (r : List Char) :
    camelTail r = true ↔
      ∃ mid v post, r = mid ++ v :: post ∧ mid ≠ [] ∧
        (∀ x ∈ mid, x.isLower = true) ∧ v.isUpper = true := by
  cases r with
  | nil =>
      simp only [camelTail]
      constructor
      · intro h
        exact absurd h (by simp)
      · rintro ⟨mid, v, post, heq, hne, -, -⟩
        cases mid with
        | nil => exact absurd rfl hne
        | cons m ms => exact absurd heq (by simp)
  | cons c rest =>
      simp only [camelTail, Bool.and_eq_true, camelAfterLower_iff]
      constructor
      · rintro ⟨hl, mid, v, post, rfl, hmid, hv⟩
        refine ⟨c :: mid, v, post, rfl, by simp, ?_, hv⟩
        intro x hx
        rcases List.mem_cons.mp hx with rfl | hx2
        · exact hl
        · exact hmid x hx2
      · rintro ⟨mid, v, post, heq, hne, hmid, hv⟩
        cases mid with
        | nil => exact absurd rfl hne
        | cons m0 mid2 =>
            rw [List.cons_append] at heq
            injection heq with h1 h2
            subst h1
            exact ⟨hmid c (by simp), mid2, v, post, h2,
              fun x hx => hmid x (by simp [hx]), hv⟩

theorem hasCamel_of_parts (pre mid post : List Char) (u v : Char)
    (hu : u.isUpper = true) (hne : mid ≠ [])
    (hmid : ∀ x ∈ mid, x.isLower = true) (hv : v.isUpper = true) :
    hasCamel (pre ++ u :: (mid ++ v :: post)) = true := by
  induction pre with
  | nil =>
      simp only [List.nil_append, hasCamel, Bool.or_eq_true, Bool.and_eq_true]
      exact Or.inl ⟨hu, (camelTail_iff _).mpr ⟨mid, v, post, rfl, hne, hmid, hv⟩⟩
  | cons p ps ih =>
      simp only [List.cons_append, hasCamel, Bool.or_eq_true]
      exact Or.inr ih

theorem hasCamel_iff (s : List Char) : hasCamel s = true ↔ CamelPattern s := by
  constructor
  · intro h
    induction s with
    | nil => simp [hasCamel] at h
    | cons c rest ih =>
        simp only [hasCamel, Bool.or_eq_true, Bool.and_eq_true] at h
        rcases h with ⟨hu, ht⟩ | hc
        · obtain ⟨mid, v, post, rfl, hne, hmid, hv⟩ := (camelTail_iff rest).mp ht
          exact ⟨[], mid, post, c, v, rfl, hu, hne, hmid, hv⟩
        · obtain ⟨pre, mid, post, u, v, rfl, hu, hne, hmid, hv⟩ := ih hc
          exact ⟨c :: pre, mid, post, u, v, rfl, hu, hne, hmid, hv⟩
  · rintro ⟨pre, mid, post, u, v, rfl, hu, hne, hmid, hv⟩
    exact hasCamel_of_parts pre mid post u v hu hne hmid hv

/-! ## Evaluation of scenario 2 -/

theorem ragConfidence_scenario2 : ragConfidence scenario2Query = 3/10 := by
  have h1 : (words scenario2Query.toList).length = 7 := by decide
  have h2 : examKeywordCount (lowerChars scenario2Query.toList) = 2 := by decide
  have h3 : hasCamel scenario2Query.toList = false := by decide
  have h4 : hasAcronym scenario2Query.toList = false := by decide
  have h5 : specificityWords.any
      (fun w => infixOfB w.toList (lowerChars scenario2Query.toList)) = false := by
    decide
  rw [ragConfidence, if_pos (by norm_num [maxScore])]
  simp only [ragScore, h1, h2, lengthScore, keywordScore, camelScore, h3,
    acronymScore, h4, specificityScore, h5, maxScore, if_false,
    Bool.false_eq_true]
  norm_num [min_def]

/-! ## Claims C2, C5, C6 -/

/-- C2 counterexample: on the query "Define object-oriented programming and
explain its principles" with the default threshold 0.5, `should_use_rag`
does NOT reach confidence 0.5 and does NOT decide to retrieve (the claim
asserts both). -/
theorem c2_counterexample :
    ¬ ((1:ℚ)/2 ≤ (should_use_rag (1/2) scenario2Query).2 ∧
       (should_use_rag (1/2) scenario2Query).1 = true) := by
  rintro ⟨h1, -⟩
  rw [show (should_use_rag (1/2) scenario2Query).2 = ragConfidence scenario2Query
        from rfl, ragConfidence_scenario2] at h1
  norm_num at h1

/-- C2 amended: on the scenario-2 query (7 whitespace tokens, keyword hits
"define" and "explain", no technical pattern, no course-context word) the
code returns confidence exactly 0.3 and decision `false` at the default
threshold 0.5. -/
theorem c2_amended :
    should_use_rag (1/2) scenario2Query = (false, 3/10) := by
  rw [should_use_rag, ragConfidence_scenario2]
  refine Prod.ext ?_ rfl
  simp only [decide_eq_false_iff_not, ge_iff_le]
  norm_num

/-- C5 counterexample: on the query "iPhone" the spec's embedded-capital
pattern (lowercase run, then uppercase, then lowercase) holds, yet the
code's CamelCase check `[A-Z][a-z]+[A-Z]` contributes 0, not 0.15: the
claimed equivalence fails. -/
theorem c5_counterexample :
    ¬ (camelScore "iPhone".toList = 15/100 ↔
       specEmbeddedCapital "iPhone".toList) := by
  intro h
  have hspec : specEmbeddedCapital "iPhone".toList :=
    ⟨[], ['i'], ['o', 'n', 'e'], 'P', 'h', by decide, by decide, by decide,
      by decide, by decide⟩
  have hc : camelScore "iPhone".toList = 0 := by
    rw [camelScore, if_neg (by decide : ¬ hasCamel "iPhone".toList = true)]
  rw [hc] at h
  have := h.mpr hspec
  norm_num at this

/-- C5 amended: the first half of the technical-pattern factor contributes
exactly +0.15 iff the query contains an uppercase letter, followed by a
nonempty lowercase run, followed by an uppercase letter (the code's regex
`[A-Z][a-z]+[A-Z]`). -/
theorem c5_amended (q : String) :
    camelScore q.toList = 15/100 ↔ CamelPattern q.toList := by
  rw [camelScore]
  by_cases hc : hasCamel q.toList = true
  · rw [if_pos hc]
    exact iff_of_true rfl ((hasCamel_iff _).mp hc)
  · rw [if_neg hc]
    refine iff_of_false (by norm_num) ?_
    intro hp
    exact hc ((hasCamel_iff _).mpr hp)

/-- C5 amended, witnessed at "AbC": the pattern holds there and the factor
contributes 0.15. -/
theorem c5_amended_witness : camelScore "AbC".toList = 15/100 :=
  (c5_amended "AbC").mpr
    ⟨[], ['b'], [], 'A', 'C', by decide, by decide, by decide, by decide,
      by decide⟩

/-- C6: appending a recognized domain keyword (separated by a space) to an
otherwise fixed query never decreases the confidence of `should_use_rag`. -/
theorem c6_keyword_monotonic (q kw : String) (hkw : kw ∈ examKeywords) :
    ragConfidence q ≤ ragConfidence (q ++ " " ++ kw) := by
  have hmax : maxScore = 1 := by norm_num [maxScore]
  have hlist : (q ++ " " ++ kw).toList = q.toList ++ ' ' :: kw.toList := by
    show ((q ++ " ") ++ kw).data = q.data ++ ' ' :: kw.data
    rw [String.data_append, String.data_append, List.append_assoc]
    rfl
  have hlow : lowerChars (q.toList ++ ' ' :: kw.toList)
      = lowerChars q.toList ++ ' ' :: lowerChars kw.toList := by
    unfold lowerChars
    rw [List.map_append, List.map_cons,
      show Char.toLower ' ' = ' ' from by decide]
  unfold ragConfidence
  rw [hmax]
  simp only [gt_iff_lt, zero_lt_one, if_true, div_one]
  rw [hlist]
  unfold ragScore
  have h1 : (words q.toList).length
      ≤ (words (q.toList ++ ' ' :: kw.toList)).length := by
    rw [words_append_space]
    simp
  refine add_le_add (add_le_add (add_le_add (add_le_add ?_ ?_) ?_) ?_) ?_
  · exact lengthScore_mono h1
  · rw [hlow]
    exact keywordScore_mono (examKeywordCount_append_mono _ _)
  · exact camelScore_mono
  · exact acronymScore_mono_ws
  · rw [hlow]
    exact specificityScore_append_mono _ _

/-- C6 witnessed at a concrete query and the keyword "define". -/
theorem c6_witness :
    ragConfidence "What is recursion"
      ≤ ragConfidence ("What is recursion" ++ " " ++ "define") :=
  c6_keyword_monotonic "What is recursion" "define" (by decide)

/-! ## Claim C9 -/

/-- C9: on an unbuilt index (`faiss_index is None`) or an empty one (no
metadata), `retrieve_notes` returns `[]` for every query and every `top_k`,
and (being total in this model) never raises. -/
theorem c9_empty_index (model : String → Option Vec) (dim : Nat)
    (st : RAGState) (query : String) (top_k : Nat) (threshold : ℚ)
    (h : st.faiss_index = none ∨ st.metadata = []) :
    retrieve_notes model dim st query top_k threshold = [] := by
  rcases h with h | h
  · simp [retrieve_notes, h]
  · rcases hidx : st.faiss_index with - | db
    · simp [retrieve_notes, hidx]
    · simp [retrieve_notes, hidx, h]

/-- C9 witnessed on the freshly constructed state. -/
theorem c9_witness :
    retrieve_notes okModel 1 emptyState "What is a database?" 5 (3/10) = [] :=
  c9_empty_index okModel 1 emptyState "What is a database?" 5 (3/10)
    (Or.inl rfl)

/-! ## Claim C3 -/

/-- C3: after a successful `save_index`, `load_index` (run from any
in-memory state) succeeds and restores exactly the saved vector list and
the saved metadata list — so vector count, metadata count and document
order all match their values at the save. -/
theorem c3_save_load_roundtrip (st st2 : RAGState) (fs : FS)
    (h : (save_index st fs).1 = true) :
    (load_index st2 (save_index st fs).2).1 = true ∧
    (load_index st2 (save_index st fs).2).2.faiss_index = st.faiss_index ∧
    (load_index st2 (save_index st fs).2).2.metadata = st.metadata := by
  rcases hidx : st.faiss_index with - | db
  · simp [save_index, hidx] at h
  · simp [save_index, hidx, load_index]

/-- C3 witnessed on a two-document state saved over an empty file system
and loaded from a fresh state. -/
theorem c3_witness :
    (load_index emptyState (save_index sampleState emptyFS).2).1 = true ∧
    (load_index emptyState (save_index sampleState emptyFS).2).2.faiss_index
      = sampleState.faiss_index ∧
    (load_index emptyState (save_index sampleState emptyFS).2).2.metadata
      = sampleState.metadata :=
  c3_save_load_roundtrip sampleState emptyState emptyFS rfl

/-! ## Claim C1: lemmas about `search` and the result loop -/

theorem insertByDist_length (p : Int × ℚ) (l : List (Int × ℚ)) :
    (insertByDist p l).length = l.length + 1 := by
  induction l with
  | nil => rfl
  | cons x rest ih =>
      rw [insertByDist]
      split_ifs <;> simp [ih]

theorem sortByDist_length (l : List (Int × ℚ)) :
    (sortByDist l).length = l.length := by
  induction l with
  | nil => rfl
  | cons p rest ih =>
      rw [sortByDist, insertByDist_length, ih]
      simp

theorem search_length (db : List Vec) (qv : Vec) (k : Nat) :
    (search db qv k).length = k := by
  unfold search
  rw [List.length_append, List.length_take, List.length_replicate,
    sortByDist_length]
  unfold distRows
  rw [List.length_map, List.enum_length]
  omega

theorem rnLoop_length_le (md : List MetaEntry) (ind : List Int)
    (ds : List ℚ) (th : ℚ) (l : List (Int × ℚ)) (rs : List MetaEntry)
    (h : rnLoop md ind ds th l = some rs) : rs.length ≤ l.length := by
  induction l generalizing rs with
  | nil =>
      rw [rnLoop] at h
      cases h
      simp
  | cons p rest ih =>
      obtain ⟨idx, sim⟩ := p
      rw [rnLoop] at h
      by_cases hc : idx < (md.length : Int) ∧ th ≤ sim
      · rw [if_pos hc] at h
        cases hg : pyGet md idx with
        | none => simp only [hg] at h; cases h
        | some m =>
            simp only [hg] at h
            cases hf : ind.findIdx? (fun j => j == idx) with
            | none => simp only [hf] at h; cases h
            | some pos =>
                simp only [hf] at h
                cases hd : ds.get? pos with
                | none => simp only [hd] at h; cases h
                | some d =>
                    simp only [hd] at h
                    cases hr : rnLoop md ind ds th rest with
                    | none => simp only [hr] at h; cases h
                    | some rs2 =>
                        simp only [hr, Option.some.injEq] at h
                        subst h
                        simpa using Nat.succ_le_succ (ih rs2 hr)
      · rw [if_neg hc] at h
        exact le_trans (ih rs h) (Nat.le_succ _)

theorem rnLoop_scores (md : List MetaEntry) (ind : List Int) (ds : List ℚ)
    (th : ℚ) (l : List (Int × ℚ)) (rs : List MetaEntry)
    (h : rnLoop md ind ds th l = some rs) :
    ∀ r ∈ rs, ∃ s, r.similarityScore = some s ∧ th ≤ s := by
  induction l generalizing rs with
  | nil =>
      rw [rnLoop] at h
      cases h
      simp
  | cons p rest ih =>
      obtain ⟨idx, sim⟩ := p
      rw [rnLoop] at h
      by_cases hc : idx < (md.length : Int) ∧ th ≤ sim
      · rw [if_pos hc] at h
        cases hg : pyGet md idx with
        | none => simp only [hg] at h; cases h
        | some m =>
            simp only [hg] at h
            cases hf : ind.findIdx? (fun j => j == idx) with
            | none => simp only [hf] at h; cases h
            | some pos =>
                simp only [hf] at h
                cases hd : ds.get? pos with
                | none => simp only [hd] at h; cases h
                | some d =>
                    simp only [hd] at h
                    cases hr : rnLoop md ind ds th rest with
                    | none => simp only [hr] at h; cases h
                    | some rs2 =>
                        simp only [hr, Option.some.injEq] at h
                        subst h
                        intro r hr2
                        rcases List.mem_cons.mp hr2 with rfl | hmem
                        · exact ⟨sim, rfl, hc.2⟩
                        · exact ih rs2 hr r hmem
      · rw [if_neg hc] at h
        exact ih rs h

theorem c1_zip_length (db : List Vec) (qv : Vec) (top_k : Nat) :
    (((search db qv top_k).map Prod.fst).zip
      (((search db qv top_k).map Prod.snd).map (fun d => 1 / (1 + d)))).length
      = top_k := by
  rw [List.length_zip]
  simp [search_length]

theorem retrieve_notes_some (model : String → Option Vec) (dim : Nat)
    (st : RAGState) (query : String) (top_k : Nat) (threshold : ℚ)
    (db : List Vec) (qv : Vec) (hidx : st.faiss_index = some db)
    (hmd : ¬ st.metadata.length = 0)
    (he : embed_text model dim query = some qv) :
    retrieve_notes model dim st query top_k threshold
      = match rnLoop st.metadata ((search db qv top_k).map Prod.fst)
          ((search db qv top_k).map Prod.snd) threshold
          (((search db qv top_k).map Prod.fst).zip
            (((search db qv top_k).map Prod.snd).map (fun d => 1 / (1 + d)))) with
        | none => []
        | some rs => rs := by
  simp only [retrieve_notes, hidx, he, if_neg hmd]

theorem retrieve_notes_cases (model : String → Option Vec) (dim : Nat)
    (st : RAGState) (query : String) (top_k : Nat) (threshold : ℚ) :
    retrieve_notes model dim st query top_k threshold = [] ∨
    ∃ db qv rs, st.faiss_index = some db ∧
      rnLoop st.metadata ((search db qv top_k).map Prod.fst)
        ((search db qv top_k).map Prod.snd) threshold
        (((search db qv top_k).map Prod.fst).zip
          (((search db qv top_k).map Prod.snd).map (fun d => 1 / (1 + d))))
        = some rs ∧
      retrieve_notes model dim st query top_k threshold = rs := by
  by_cases hmd : st.metadata.length = 0
  · left
    rcases hidx : st.faiss_index with - | db
    · simp [retrieve_notes, hidx]
    · simp [retrieve_notes, hidx, hmd]
  · rcases hidx : st.faiss_index with - | db
    · left
      simp [retrieve_notes, hidx]
    · cases he : embed_text model dim query with
      | none =>
          left
          simp [retrieve_notes, hidx, hmd, he]
      | some qv =>
          have hu := retrieve_notes_some model dim st query top_k threshold
            db qv hidx hmd he
          cases hrn : rnLoop st.metadata ((search db qv top_k).map Prod.fst)
              ((search db qv top_k).map Prod.snd) threshold
              (((search db qv top_k).map Prod.fst).zip
                (((search db qv top_k).map Prod.snd).map (fun d => 1 / (1 + d)))) with
          | none =>
              left
              rw [hu, hrn]
          | some rs =>
              right
              exact ⟨db, qv, rs, rfl, hrn, by rw [hu, hrn]⟩

/-! ## Claim C1 -/

/-- C1: for every query, every `top_k` and every threshold,
`retrieve_notes` returns at most `top_k` entries, and every returned entry
carries a `similarity_score` that is at least the threshold. -/
theorem c1_retrieve_topk (model : String → Option Vec) (dim : Nat)
    (st : RAGState) (query : String) (top_k : Nat) (threshold : ℚ) :
    (retrieve_notes model dim st query top_k threshold).length ≤ top_k ∧
    ∀ r ∈ retrieve_notes model dim st query top_k threshold,
      ∃ s, r.similarityScore = some s ∧ threshold ≤ s := by
  rcases retrieve_notes_cases model dim st query top_k threshold with
    h | ⟨db, qv, rs, hidx, hrn, heq⟩
  · rw [h]
    exact ⟨Nat.zero_le _, by simp⟩
  · rw [heq]
    constructor
    · have h1 := rnLoop_length_le _ _ _ _ _ _ hrn
      rw [c1_zip_length db qv top_k] at h1
      exact h1
    · exact rnLoop_scores _ _ _ _ _ _ hrn

/-- Concrete evaluation of `retrieve_notes` on the one-document state: the
single stored document is returned with similarity 1 and distance 0. -/
theorem retrieve_notes_oneState_eval :
    retrieve_notes okModel 1 oneState "Explain stacks" 1 (3/10)
      = [{ u1 with similarityScore := some 1, distance := some 0 }] := by
  have he : embed_text okModel 1 "Explain stacks" = some [1] := by
    rw [embed_text, if_neg (by decide : ¬ ("Explain stacks" = ""))]
    rfl
  rw [retrieve_notes_some okModel 1 oneState "Explain stacks" 1 (3/10)
    [[1]] [1] rfl (by decide) he]
  norm_num [search, distRows, sortByDist, insertByDist, sqDist, rnLoop, pyGet,
    oneState]

/-- C1 witnessed on the one-document state: one result is returned within
the bound, and its score clears the default threshold 0.3. -/
theorem c1_witness :
    (retrieve_notes okModel 1 oneState "Explain stacks" 1 (3/10)).length ≤ 1 ∧
    ∃ s, ({ u1 with similarityScore := some 1, distance := some 0 } :
        MetaEntry).similarityScore = some s ∧ (3/10 : ℚ) ≤ s :=
  ⟨(c1_retrieve_topk okModel 1 oneState "Explain stacks" 1 (3/10)).1,
   (c1_retrieve_topk okModel 1 oneState "Explain stacks" 1 (3/10)).2 _
     (by rw [retrieve_notes_oneState_eval]; exact List.mem_singleton_self _)⟩

/-! ## Claim C4 -/

/-- C4 counterexample: `retrieve_by_unit` has no exception handler, so an
embedding-provider failure during a query-ranked call escapes to the caller
(result `none`) instead of yielding an empty list — refuting "retrieval
never raises". -/
theorem c4_counterexample :
    (retrieve_by_unit failingModel 2 constSim sampleState "bbit106"
      (some "What is OOP?") 3).2 = none := by
  rfl

/-- C4 amended: `retrieve_notes` indeed converts every embedding failure
into `[]` (its body is wrapped in `try`/`except`), and `retrieve_by_unit`
without a query never raises; but a query-ranked `retrieve_by_unit` call on
a unit with matches propagates an embedding failure to the caller. -/
theorem c4_amended (model : String → Option Vec) (dim : Nat)
    (simFn : Vec → Vec → ℚ) (st : RAGState) (unit q query : String)
    (top_k : Nat) (threshold : ℚ) :
    (embed_text model dim query = none →
      retrieve_notes model dim st query top_k threshold = []) ∧
    ((retrieve_by_unit model dim simFn st unit none top_k).2.isSome = true) ∧
    (st.metadata.filter (unitMatches unit) ≠ [] → ¬ q = "" →
      embed_text model dim q = none →
      (retrieve_by_unit model dim simFn st unit (some q) top_k).2 = none) := by
  refine ⟨?_, ?_, ?_⟩
  · intro he
    rcases hidx : st.faiss_index with - | db
    · simp [retrieve_notes, hidx]
    · by_cases hmd : st.metadata.length = 0
      · simp [retrieve_notes, hidx, hmd]
      · simp only [retrieve_notes, hidx, he, if_neg hmd]
  · simp only [retrieve_by_unit]
    split
    · rfl
    · rfl
  · intro hne hq he
    have hempty : ¬ ((st.metadata.filter (unitMatches unit)).isEmpty = true) := by
      cases hl : st.metadata.filter (unitMatches unit) with
      | nil => exact absurd hl hne
      | cons a l => simp [hl]
    simp only [retrieve_by_unit, if_neg hempty, if_neg hq, he]

/-- C4 amended, witnessed: the no-handler branch observed on a concrete
failing provider. -/
theorem c4_witness :
    (retrieve_by_unit failingModel 2 constSim sampleState "BBIT106"
      (some "Explain OOP") 3).2 = none :=
  (c4_amended failingModel 2 constSim sampleState "BBIT106" "Explain OOP"
    "x" 3 0).2.2 (by decide) (by decide) rfl

/-! ## Claim C7 -/

theorem forall2_sansScore_refl (l : List MetaEntry) :
    List.Forall₂ (fun r m => sansScore r = sansScore m) l l := by
  induction l with
  | nil => exact List.Forall₂.nil
  | cons m rest ih => exact List.Forall₂.cons rfl ih

theorem scoreLoop_sansScore (model : String → Option Vec) (dim : Nat)
    (simFn : Vec → Vec → ℚ) (qv : Vec) (l : List MetaEntry) :
    List.Forall₂ (fun r m => sansScore r = sansScore m)
      (scoreLoop model dim simFn qv l).1 l := by
  induction l with
  | nil => exact List.Forall₂.nil
  | cons m rest ih =>
      rw [scoreLoop]
      cases he : embed_text model dim m.question with
      | none =>
          simp only [he]
          exact forall2_sansScore_refl _
      | some e =>
          simp only [he]
          exact List.Forall₂.cons rfl ih

theorem replaceMatching_sansScore (p : MetaEntry → Bool) :
    ∀ (l repls : List MetaEntry),
      List.Forall₂ (fun r m => sansScore r = sansScore m) repls (l.filter p) →
      (replaceMatching p l repls).map sansScore = l.map sansScore := by
  intro l
  induction l with
  | nil =>
      intro repls h
      rfl
  | cons m rest ih =>
      intro repls h
      by_cases hp : p m = true
      · rw [List.filter_cons_of_pos hp] at h
        cases h with
        | cons hr hrest =>
            simp only [replaceMatching, if_pos hp, List.map_cons]
            rw [hr, ih _ hrest]
      · rw [List.filter_cons_of_neg hp] at h
        simp only [replaceMatching, if_neg hp, List.map_cons]
        rw [ih _ h]

/-- C7 counterexample: a query-ranked `retrieve_by_unit` call writes
`similarity_score` through the aliased dicts, so the stored metadata is NOT
left unchanged. -/
theorem c7_counterexample :
    (retrieve_by_unit okModel 1 constSim oneState "BBIT106" (some "oop") 3).1
      ≠ oneState.metadata := by
  decide

/-- C7 amended: `retrieve_by_unit` preserves the stored metadata exactly
when no query is given; a query-ranked call preserves entry count, order
and every field except `similarity_score`, which it overwrites in place on
the matching entries. -/
theorem c7_amended (model : String → Option Vec) (dim : Nat)
    (simFn : Vec → Vec → ℚ) (st : RAGState) (unit : String)
    (query : Option String) (top_k : Nat) :
    ((retrieve_by_unit model dim simFn st unit query top_k).1.map sansScore
      = st.metadata.map sansScore) ∧
    (retrieve_by_unit model dim simFn st unit none top_k).1 = st.metadata := by
  constructor
  · cases query with
    | none =>
        simp only [retrieve_by_unit]
        split
        · rfl
        · rfl
    | some q =>
        simp only [retrieve_by_unit]
        split
        · rfl
        · by_cases hq : q = ""
          · rw [if_pos hq]
          · rw [if_neg hq]
            cases he : embed_text model dim q with
            | none => simp only [he]
            | some qv =>
                simp only [he]
                split
                · exact replaceMatching_sansScore _ _ _
                    (scoreLoop_sansScore model dim simFn qv _)
                · exact replaceMatching_sansScore _ _ _
                    (scoreLoop_sansScore model dim simFn qv _)
  · simp only [retrieve_by_unit]
    split
    · rfl
    · rfl

/-! ## Claim C8 -/

theorem fcLoop_eq (maxLen : Int) :
    ∀ (l : List MetaEntry) (i : Nat) (total : Int),
      fcLoop maxLen i total l =
        (renderFrom i l).take (takeWithin maxLen total (renderFrom i l)) ++
          (if takeWithin maxLen total (renderFrom i l) < l.length
           then [moreTrailer
              (l.length - takeWithin maxLen total (renderFrom i l))]
           else []) := by
  intro l
  induction l with
  | nil =>
      intro i total
      simp [fcLoop, renderFrom, takeWithin]
  | cons q rest ih =>
      intro i total
      by_cases hov : maxLen < total + ((renderEntry i q).length : Int)
      · simp only [fcLoop, renderFrom, takeWithin]
        rw [if_pos hov, if_pos hov]
        simp
      · simp only [fcLoop, renderFrom, takeWithin]
        rw [if_neg hov, if_neg hov]
        rw [ih (i + 1) (total + (renderEntry i q).length)]
        rw [Nat.add_comm 1
          (takeWithin maxLen (total + ((renderEntry i q).length : Int))
            (renderFrom (i + 1) rest))]
        simp [List.take_succ_cons, Nat.succ_sub_succ, Nat.succ_lt_succ_iff,
          List.cons_append]

/-- C8: `format_context` returns `""` on an empty result list; otherwise it
emits the fixed header, then the greedy prefix of whole rendered entries in
order (`takeWithin` counts how many fit within `maxLen`), and — exactly
when some entry did not fit — a single trailer naming how many entries were
omitted. -/
theorem c8_format_context (results : List MetaEntry) (maxLen : Int) :
    format_context [] maxLen = "" ∧
    (results ≠ [] →
      format_context results maxLen =
        String.intercalate "\n" (contextHeader ++
          ((renderFrom 1 results).take
              (takeWithin maxLen 0 (renderFrom 1 results)) ++
            (if takeWithin maxLen 0 (renderFrom 1 results) < results.length
             then [moreTrailer (results.length -
                takeWithin maxLen 0 (renderFrom 1 results))]
             else [])))) := by
  constructor
  · rfl
  · intro hne
    have hemp : results.isEmpty = false := by
      cases results with
      | nil => exact absurd rfl hne
      | cons a l => rfl
    rw [format_context, hemp]
    rw [fcLoop_eq maxLen results 1 0]
    rfl

/-- C8 witnessed on a one-entry list with the default budget. -/
theorem c8_witness :
    format_context [u1] 2000 =
      String.intercalate "\n" (contextHeader ++
        ((renderFrom 1 [u1]).take (takeWithin 2000 0 (renderFrom 1 [u1])) ++
          (if takeWithin 2000 0 (renderFrom 1 [u1])
              < ([u1] : List MetaEntry).length
           then [moreTrailer (([u1] : List MetaEntry).length -
              takeWithin 2000 0 (renderFrom 1 [u1]))]
           else []))) :=
  (c8_format_context [u1] 2000).2 (by decide)

/-! ## Claim C10: dict semantics of the batch loop -/

theorem dictLookup_cons {α : Type} (p : String × α) (acc : List (String × α))
    (q : String) :
    dictLookup (p :: acc) q = if p.1 = q then some p.2 else dictLookup acc q := by
  simp only [dictLookup, List.find?]
  by_cases h : (p.1 == q) = true
  · have he : p.1 = q := by simpa using h
    simp [h, he]
  · have he : ¬ p.1 = q := by simpa using h
    simp [h, he]

theorem dictLookup_map_ne {α : Type} (k q : String) (v : α) (hne : ¬ q = k) :
    ∀ acc : List (String × α),
      dictLookup (acc.map (fun p => if p.1 == k then (k, v) else p)) q
        = dictLookup acc q := by
  intro acc
  induction acc with
  | nil => rfl
  | cons p acc2 ih =>
      rw [List.map_cons, dictLookup_cons, dictLookup_cons]
      by_cases hpk : (p.1 == k) = true
      · have hpke : p.1 = k := by simpa using hpk
        have h1 : ¬ ((if (p.1 == k) = true then (k, v) else p).1 = q) := by
          rw [if_pos hpk]
          exact fun h => hne h.symm
        have h2 : ¬ p.1 = q := by
          rw [hpke]
          exact fun h => hne h.symm
        rw [if_neg h1, if_neg h2]
        exact ih
      · rw [if_neg hpk]
        by_cases hpq : p.1 = q
        · rw [if_pos hpq, if_pos hpq]
        · rw [if_neg hpq, if_neg hpq]
          exact ih

theorem dictLookup_map_overwrite {α : Type} (k q : String) (v : α) :
    ∀ acc : List (String × α),
      acc.any (fun p => p.1 == k) = true →
      dictLookup (acc.map (fun p => if p.1 == k then (k, v) else p)) q
        = if q = k then some v else dictLookup acc q := by
  intro acc
  induction acc with
  | nil =>
      intro h
      simp at h
  | cons p acc2 ih =>
      intro hany
      rw [List.map_cons, dictLookup_cons, dictLookup_cons]
      by_cases hpk : (p.1 == k) = true
      · have hpke : p.1 = k := by simpa using hpk
        by_cases hqk : q = k
        · have h1 : (if (p.1 == k) = true then (k, v) else p).1 = q := by
            rw [if_pos hpk, hqk]
          rw [if_pos h1, if_pos hqk, if_pos hpk]
        · have h1 : ¬ ((if (p.1 == k) = true then (k, v) else p).1 = q) := by
            rw [if_pos hpk]
            exact fun h => hqk h.symm
          have h2 : ¬ p.1 = q := by
            rw [hpke]
            exact fun h => hqk h.symm
          rw [if_neg h1, if_neg hqk, if_neg h2]
          exact dictLookup_map_ne k q v hqk acc2
      · rw [if_neg hpk]
        have hany2 : acc2.any (fun p => p.1 == k) = true := by
          rw [List.any_cons] at hany
          rcases Bool.or_eq_true_iff.mp hany with h | h
          · exact absurd h hpk
          · exact h
        by_cases hpq : p.1 = q
        · have hqk : ¬ q = k := by
            rw [← hpq]
            intro h
            exact hpk (by simpa using h)
          rw [if_pos hpq, if_neg hqk, if_pos hpq]
        · rw [if_neg hpq, if_neg hpq]
          exact ih hany2

theorem dictLookup_append_single {α : Type} (k q : String) (v : α) :
    ∀ acc : List (String × α),
      acc.any (fun p => p.1 == k) = false →
      dictLookup (acc ++ [(k, v)]) q
        = if q = k then some v else dictLookup acc q := by
  intro acc
  induction acc with
  | nil =>
      intro _
      rw [List.nil_append, dictLookup_cons]
      by_cases h : q = k
      · rw [if_pos h, if_pos (h.symm)]
      · rw [if_neg h, if_neg (fun hh => h hh.symm)]
  | cons p acc2 ih =>
      intro hany
      have hp : (p.1 == k) = false := by
        by_contra hc
        have : (p.1 == k) = true := by
          cases hb : (p.1 == k)
          · exact absurd hb hc
          · rfl
        simp [List.any_cons, this] at hany
      have hrest : acc2.any (fun p => p.1 == k) = false := by
        by_contra hc
        have : acc2.any (fun p => p.1 == k) = true := by
          cases hb : acc2.any (fun p => p.1 == k)
          · exact absurd hb hc
          · rfl
        simp [List.any_cons, this] at hany
      rw [List.cons_append, dictLookup_cons, dictLookup_cons]
      by_cases hpq : p.1 = q
      · have hqk : ¬ q = k := by
          rw [← hpq]
          intro h
          exact absurd (by simpa using h : (p.1 == k) = true) (by simp [hp])
        rw [if_pos hpq, if_neg hqk, if_pos hpq]
      · rw [if_neg hpq, if_neg hpq]
        exact ih hrest

theorem dictLookup_dictInsert {α : Type} (acc : List (String × α))
    (k q : String) (v : α) :
    dictLookup (dictInsert acc k v) q
      = if q = k then some v else dictLookup acc q := by
  rw [dictInsert]
  by_cases hany : acc.any (fun p => p.1 == k) = true
  · rw [if_pos hany]
    exact dictLookup_map_overwrite k q v acc hany
  · rw [if_neg hany]
    refine dictLookup_append_single k q v acc ?_
    cases hb : acc.any (fun p => p.1 == k) with
    | false => rfl
    | true => exact absurd hb hany

theorem dictInsert_keys {α : Type} (acc : List (String × α)) (k : String)
    (v : α) :
    (dictInsert acc k v).map Prod.fst =
      if k ∈ acc.map Prod.fst then acc.map Prod.fst
      else acc.map Prod.fst ++ [k] := by
  have hiff : (acc.any (fun p => p.1 == k) = true) ↔ k ∈ acc.map Prod.fst := by
    rw [List.any_eq_true]
    constructor
    · rintro ⟨p, hp, hpk⟩
      exact List.mem_map.mpr ⟨p, hp, by simpa using hpk⟩
    · intro hmem
      obtain ⟨p, hp, hpk⟩ := List.mem_map.mp hmem
      exact ⟨p, hp, by simp [hpk]⟩
  rw [dictInsert]
  by_cases hany : acc.any (fun p => p.1 == k) = true
  · rw [if_pos hany, if_pos (hiff.mp hany), List.map_map]
    apply List.map_congr_left
    intro p2 _
    by_cases h : (p2.1 == k) = true
    · have he : p2.1 = k := by simpa using h
      simp [Function.comp, h, he]
    · simp [Function.comp, h]
  · rw [if_neg hany, if_neg (fun hmem => hany (hiff.mpr hmem)),
      List.map_append]
    rfl

theorem batchLoop_keys (f : Nat → String → Option String) :
    ∀ (qs : List String) (i : Nat) (acc : List (String × Option String)),
      (batchLoop f i acc qs).map Prod.fst
        = acc.map Prod.fst ++ dedupAppend (acc.map Prod.fst) qs := by
  intro qs
  induction qs with
  | nil =>
      intro i acc
      simp [batchLoop, dedupAppend]
  | cons q rest ih =>
      intro i acc
      rw [batchLoop, ih, dictInsert_keys, dedupAppend]
      by_cases hmem : q ∈ acc.map Prod.fst
      · rw [if_pos hmem, if_pos hmem]
      · rw [if_neg hmem, if_neg hmem]
        simp [List.append_assoc]

theorem dedupAppend_mem (q : String) :
    ∀ (qs seen : List String),
      q ∈ dedupAppend seen qs ↔ (q ∈ qs ∧ ¬ q ∈ seen) := by
  intro qs
  induction qs with
  | nil =>
      intro seen
      simp [dedupAppend]
  | cons x rest ih =>
      intro seen
      rw [dedupAppend]
      by_cases hx : x ∈ seen
      · rw [if_pos hx, ih]
        constructor
        · rintro ⟨hq, hs⟩
          exact ⟨List.mem_cons_of_mem x hq, hs⟩
        · rintro ⟨hq, hs⟩
          rcases List.mem_cons.mp hq with rfl | hq2
          · exact absurd hx hs
          · exact ⟨hq2, hs⟩
      · rw [if_neg hx]
        simp only [List.mem_cons, ih]
        constructor
        · rintro (rfl | ⟨hq, hs⟩)
          · exact ⟨Or.inl rfl, hx⟩
          · exact ⟨Or.inr hq, fun hc => hs (List.mem_append_left _ hc)⟩
        · rintro ⟨(rfl | hq), hs⟩
          · exact Or.inl rfl
          · by_cases hqx : q = x
            · exact Or.inl hqx
            · right
              refine ⟨hq, ?_⟩
              intro hc
              rcases List.mem_append.mp hc with hc1 | hc2
              · exact hs hc1
              · exact hqx (List.mem_singleton.mp hc2)

theorem dedupAppend_nodup :
    ∀ (qs seen : List String), (dedupAppend seen qs).Nodup := by
  intro qs
  induction qs with
  | nil =>
      intro seen
      exact List.nodup_nil
  | cons x rest ih =>
      intro seen
      rw [dedupAppend]
      by_cases hx : x ∈ seen
      · rw [if_pos hx]
        exact ih seen
      · rw [if_neg hx]
        refine List.nodup_cons.mpr ⟨?_, ih (seen ++ [x])⟩
        intro hc
        exact ((dedupAppend_mem x rest (seen ++ [x])).mp hc).2
          (List.mem_append_right _ (List.mem_singleton_self x))

theorem batchLoop_lookup (f : Nat → String → Option String) (q : String) :
    ∀ (qs : List String) (i : Nat) (acc : List (String × Option String)),
      dictLookup (batchLoop f i acc qs) q
        = if q ∈ qs then some (f (i + lastOcc q qs) q)
          else dictLookup acc q := by
  intro qs
  induction qs with
  | nil =>
      intro i acc
      simp [batchLoop]
  | cons x rest ih =>
      intro i acc
      rw [batchLoop, ih]
      by_cases hrest : q ∈ rest
      · rw [if_pos hrest, if_pos (List.mem_cons_of_mem x hrest), lastOcc,
          if_pos hrest]
        have harith : i + 1 + lastOcc q rest = i + (lastOcc q rest + 1) := by
          omega
        rw [harith]
      · rw [if_neg hrest, dictLookup_dictInsert]
        by_cases hqx : q = x
        · rw [if_pos hqx,
            if_pos (by rw [hqx]; exact List.mem_cons_self x rest), lastOcc,
            if_neg hrest]
          subst hqx
          simp
        · have hnot : ¬ q ∈ x :: rest := by
            intro hc
            rcases List.mem_cons.mp hc with h | h
            · exact hqx h
            · exact hrest h
          rw [if_neg hqx, if_neg hnot]

/-! ## Claim C10 -/

/-- C10: `batch_answer_questions` returns a mapping whose keys are exactly
the distinct query strings (no duplicates; a string is a key iff it occurs
in the input), and a repeated query's stored answer is the one produced by
the `answer_question` call at its last occurrence. -/
theorem c10_batch (f : Nat → String → Option String) (qs : List String) :
    ((batch_answer_questions f qs).map Prod.fst).Nodup ∧
    (∀ q, q ∈ (batch_answer_questions f qs).map Prod.fst ↔ q ∈ qs) ∧
    (∀ q, q ∈ qs →
      dictLookup (batch_answer_questions f qs) q
        = some (f (lastOcc q qs) q)) := by
  refine ⟨?_, ?_, ?_⟩
  · rw [batch_answer_questions, batchLoop_keys]
    simpa using dedupAppend_nodup qs []
  · intro q
    rw [batch_answer_questions, batchLoop_keys]
    simp [dedupAppend_mem]
  · intro q hq
    rw [batch_answer_questions, batchLoop_lookup, if_pos hq]
    simp

/-- C10 witnessed on `["A", "B", "A"]` with a provider that answers with
the call index: the stored answer for "A" is the one from the second
occurrence (call index 2). -/
theorem c10_witness :
    dictLookup (batch_answer_questions idxAnswer ["A", "B", "A"]) "A"
      = some (some "2") := by
  have h := (c10_batch idxAnswer ["A", "B", "A"]).2.2 "A" (by decide)
  rw [h]
  rfl

end UniAI
